import Mathlib

/-!
# sidecar-windows: the tmux backend of `internal/mux`

A shallow embedding of `src/internal/mux/tmux.go`.

* A Go `string` is modelled by its sequence of runes (`List Char`); the model covers
  strings holding valid UTF-8, which is what `strings.TrimSpace` and `fmt.Sscanf`
  decode rune by rune.
* A Go `int` is a 64-bit two's-complement integer, modelled by an `Int` together with
  the explicit conversions `uint64` / `int64`.
* `exec.Command("tmux", args...)` is modelled by a function from the argument list to
  the captured standard output and the returned `error`.
* The library functions the file calls (`fmt.Sprintf`, `fmt.Sscanf`, `strconv.ParseInt`,
  `strings.TrimSpace`, `strings.Split`, `strings.HasPrefix`) are embedded function by
  function, following the Go standard library.
-/

namespace Mux

/-- A Go string (valid UTF-8), as its sequence of runes. -/
abbrev GoString := List Char

/-- Go's `error` interface value: `none` is `nil`, `some msg` an error. -/
abbrev GoError := Option String

/-- The external `tmux` program as seen through `exec.Command("tmux", args...)`:
the captured standard output and the error of `.Output()`; `.Run()` is its error. -/
abbrev Tmux := List GoString → GoString × GoError

/-! ## `fmt`: the `%d` verb of `Sprintf` -/

/-- `uint64(v)` for a Go `int` operand. -/
def uint64 (v : Int) : Nat := (v % 2 ^ 64).toNat

/-- `int64(u)` for a `uint64` value. -/
def int64 (u : Nat) : Int :=
  if u % 2 ^ 64 < 2 ^ 63 then ((u % 2 ^ 64 : Nat) : Int) else ((u % 2 ^ 64 : Nat) : Int) - 2 ^ 64

/-- `const ldigits = "0123456789abcdefx"` of `fmt/format.go`. -/
def ldigits : List Char := "0123456789abcdefx".toList

/-- The base-10 branch of `fmt.fmtInteger`, which fills `buf` right to left:
`for u >= 10 { i--; next := u / 10; buf[i] = byte('0' + u - next*10); u = next }`
followed by `i--; buf[i] = digits[u]`. The first argument bounds the number of
iterations; a `uint64` has at most 20 decimal digits. -/
def fmtIntegerLoop : Nat → Nat → List Char → List Char
  | 0, u, buf => ldigits.getD u '0' :: buf
  | fuel + 1, u, buf =>
    if u ≥ 10 then
      let next := u / 10
      fmtIntegerLoop fuel next (Char.ofNat ((48 + u - next * 10) % 256) :: buf)
    else ldigits.getD u '0' :: buf

/-- `fmt.fmtInteger(u, 10, isSigned = true, 'd', ldigits)` with no width, precision
or flags: `negative := int64(u) < 0; if negative { u = -u }`, the digit loop, then
`if negative { i--; buf[i] = '-' }`. -/
def fmtInteger (u : Nat) : GoString :=
  let negative := decide (int64 u < 0)
  let u := if negative then (2 ^ 64 - u) % 2 ^ 64 else u
  let buf := fmtIntegerLoop 20 u []
  if negative then '-' :: buf else buf

/-- The text `%d` produces for an `int` operand (`p.fmtInteger(uint64(f), signed, verb)`). -/
def fmtD (v : Int) : GoString := fmtInteger (uint64 v)

/-! ## `TmuxMux.SendSGRMouse` -/

/-- The `seq` of `SendSGRMouse`:
`releaseChar := "M"; if release { releaseChar = "m" }` and
`fmt.Sprintf("\x1b[<%d;%d;%d%s", button, col, row, releaseChar)`. -/
def sgrMouseSeq (button col row : Int) (release : Bool) : GoString :=
  let releaseChar := if release then "m".toList else "M".toList
  "\x1b[<".toList ++ fmtD button ++ ";".toList ++ fmtD col ++ ";".toList ++ fmtD row
    ++ releaseChar

/-- The method `TmuxMux.SendSGRMouse`:
`exec.Command("tmux", "send-keys", "-t", target, "-l", seq).Run()`. -/
def SendSGRMouse (tmux : Tmux) (target : GoString) (button col row : Int) (release : Bool) :
    GoError :=
  (tmux ["send-keys".toList, "-t".toList, target, "-l".toList,
    sgrMouseSeq button col row release]).2

/-! ## `strings` -/

/-- `unicode.IsSpace`, the Unicode White_Space property; `fmt/scan.go` keeps its own copy
of the same ranges in its table `space`, read by its `isSpace`. -/
def isSpace (r : Char) : Bool :=
  let n := r.toNat
  (0x0009 ≤ n && n ≤ 0x000d) || n == 0x0020 || n == 0x0085 || n == 0x00a0 || n == 0x1680
    || (0x2000 ≤ n && n ≤ 0x200a) || (0x2028 ≤ n && n ≤ 0x2029) || n == 0x202f
    || n == 0x205f || n == 0x3000

/-- `strings.TrimSpace(s)`: `s` without its leading and trailing white space. -/
def TrimSpace (s : GoString) : GoString := (s.dropWhile isSpace).rdropWhile isSpace

/-- `strings.Count(s, "\n")`. -/
def Count (s : GoString) : Nat := s.count '\n'

/-- `m := Index(s, "\n")` with the two slices `genSplit` takes: `s[:m]` and, when
`m >= 0`, `s[m+1:]`. -/
def cutLine : GoString → GoString × Option GoString
  | [] => ([], none)
  | c :: cs =>
    if c = '\n' then ([], some cs)
    else ((c :: (cutLine cs).1), (cutLine cs).2)

/-- The loop of `strings.genSplit(s, "\n", 0, n)`:
`for i < n { m := Index(s, sep); if m < 0 { break }; a[i] = s[:m]; s = s[m+len(sep):]; i++ }`
and `a[i] = s`. -/
def genSplit : Nat → GoString → List GoString
  | 0, s => [s]
  | n + 1, s =>
    match cutLine s with
    | (a, some rest) => a :: genSplit n rest
    | (_, none) => [s]

/-- `strings.Split(s, "\n")`, which is `genSplit(s, "\n", 0, -1)`: there `n` becomes
`Count(s, sep) + 1` and is decremented before the loop. -/
def Split (s : GoString) : List GoString := genSplit (Count s) s

/-- `strings.HasPrefix(s, p)`: `len(s) >= len(p) && s[:len(p)] == p`. -/
def HasPrefix (s p : GoString) : Bool := p.isPrefixOf s

/-! ## `strconv.ParseInt` -/

/-- The digit loop of `strconv.ParseUint(s, 10, 64)`, `none` being a `*NumError`.
A byte that is not a decimal digit is a syntax error (a letter gives `d >= base`);
`n >= cutoff` with `cutoff = maxUint64/10 + 1` and a wrapped or too large `n1` are range
errors. -/
def ParseUintLoop : List Char → Nat → Option Nat
  | [], n => some n
  | c :: cs, n =>
    if 48 ≤ c.toNat ∧ c.toNat ≤ 57 then
      let d := c.toNat - 48
      if n ≥ (2 ^ 64 - 1) / 10 + 1 then none
      else
        let n := n * 10
        let n1 := (n + d) % 2 ^ 64
        if n1 < n ∨ n1 > 2 ^ 64 - 1 then none
        else ParseUintLoop cs n1
    else none

/-- `strconv.ParseUint(s, 10, 64)`; the empty string is a syntax error. -/
def ParseUint (s : GoString) : Option Nat :=
  if s = [] then none else ParseUintLoop s 0

/-- `strconv.ParseInt(s, 10, 64)`, `none` when it returns a non-nil error: the sign is
picked off, the rest goes to `ParseUint`, and the range is checked against
`cutoff = 1 << 63`. -/
def ParseInt (s : GoString) : Option Int :=
  match s with
  | [] => none
  | c :: cs =>
    let neg := decide (c = '-')
    let s := if c = '+' then cs else if c = '-' then cs else c :: cs
    match ParseUint s with
    | none => none
    | some un =>
      if !neg && decide (un ≥ 2 ^ 63) then none
      else if neg && decide (un > 2 ^ 63) then none
      else
        let n := int64 un
        some (if neg then int64 (uint64 (-n)) else n)

/-! ## `fmt.Sscanf` with the format `"%d %d"` -/

/-- `(*ss).SkipSpace` with `nlIsSpace = false`, as `Sscanf` sets it; `none` is the
panic "unexpected newline", otherwise the input left to read. -/
def SkipSpace : List Char → Option (List Char)
  | [] => some []
  | r :: rest =>
    if r = '\r' ∧ rest.head? = some '\n' then SkipSpace rest
    else if r = '\n' then none
    else if !isSpace r then some (r :: rest)
    else SkipSpace rest

/-- `(*ss).accept(ok)`, that is `consume(ok, true)`: whether the next rune is in `ok`,
the input left, and the token buffer. -/
def accept (ok : List Char) (inp buf : List Char) : Bool × List Char × List Char :=
  match inp with
  | [] => (false, [], buf)
  | r :: rest => if r ∈ ok then (true, rest, buf ++ [r]) else (false, r :: rest, buf)

/-- The loop `for s.accept(digits) {}` of `scanNumber`. -/
def acceptAll (ok : List Char) : List Char → List Char → List Char × List Char
  | [], buf => ([], buf)
  | r :: rest, buf => if r ∈ ok then acceptAll ok rest (buf ++ [r]) else (r :: rest, buf)

/-- `const sign = "+-"`. -/
def sign : List Char := "+-".toList

/-- `const decimalDigits = "0123456789"`. -/
def decimalDigits : List Char := "0123456789".toList

/-- `(*ss).scanNumber(digits, false)`: `s.notEOF()`, one digit is required
("expected integer"), then all further digits; returns the input left and the token. -/
def scanNumber (digits : List Char) (inp buf : List Char) : Option (List Char × GoString) :=
  match inp with
  | [] => none
  | _ :: _ =>
    match accept digits inp buf with
    | (false, _, _) => none
    | (true, inp, buf) => some (acceptAll digits inp buf)

/-- `(*ss).scanInt('d', 64)`: `SkipSpace`, `notEOF`, `accept(sign)`, `scanNumber`,
`strconv.ParseInt(tok, 10, 64)`; with `bitSize = 64` the final overflow check
`(i << 0) >> 0 != i` never fires. Returns the value and the input left. -/
def scanInt (inp : List Char) : Option (Int × List Char) :=
  match SkipSpace inp with
  | none => none
  | some [] => none
  | some (r :: rest) =>
    match scanNumber decimalDigits (accept sign (r :: rest) []).2.1
        (accept sign (r :: rest) []).2.2 with
    | none => none
    | some (inp, tok) =>
      match ParseInt tok with
      | none => none
      | some i => some (i, inp)

/-- `(*ss).advance` on the single space of the format, between the two verbs
(`newlines = 0`, `trailingSpace = true`): the next rune must be a space other than a
newline, or the end of input; the following spaces other than newline are consumed. -/
def advanceSpace : List Char → Option (List Char)
  | [] => some []
  | c :: rest =>
    if !isSpace c then none
    else if c = '\n' then none
    else some (rest.dropWhile (fun r => isSpace r && r != '\n'))

/-- `fmt.Sscanf(str, "%d %d", &width, &height)` followed by `scanErr == nil`:
`doScanf` runs, for each verb, `SkipSpace` and `scanOne` (which stores into the
operand), and `advance` on the space between them; input left after the second
number is not looked at. The operands keep what was stored before an error. The
scanner's cap of `1 << 30` runes is not modelled. -/
def Sscanf (str : GoString) (width height : Int) : Int × Int × Bool :=
  match SkipSpace str with
  | none => (width, height, false)
  | some inp =>
    match scanInt inp with
    | none => (width, height, false)
    | some (w, inp) =>
      match advanceSpace inp with
      | none => (w, height, false)
      | some inp =>
        match SkipSpace inp with
        | none => (w, height, false)
        | some inp =>
          match scanInt inp with
          | none => (w, height, false)
          | some (h, _) => (w, h, true)

/-! ## The remaining methods of `TmuxMux` -/

/-- A Go `map[string]string`: its entries, with pairwise different keys. -/
structure GoMap where
  entries : List (GoString × GoString)
  nodupKeys : (entries.map Prod.fst).Nodup

/-- The orders in which `for k, v := range env` may visit the entries of `env`; Go
leaves the iteration order of a map unspecified. -/
def RangeOrder (env : GoMap) (order : List (GoString × GoString)) : Prop :=
  order.Perm env.entries

/-- The `args` of `NewSession`, the `range env` loop visiting the entries in `order`. -/
def NewSessionArgs (name startDir : GoString) (order : List (GoString × GoString)) :
    List GoString :=
  let args := ["new-session".toList, "-d".toList, "-s".toList, name]
  let args := if startDir ≠ [] then args ++ ["-c".toList, startDir] else args
  order.foldl (fun args kv => args ++ ["-e".toList, kv.1 ++ "=".toList ++ kv.2]) args

/-- The method `TmuxMux.NewSession`: `exec.Command("tmux", args...).Run()`. -/
def NewSession (tmux : Tmux) (name startDir : GoString) (order : List (GoString × GoString)) :
    GoError :=
  (tmux (NewSessionArgs name startDir order)).2

/-- The arguments of the `list-sessions` invocation. -/
def listSessionsArgs : List GoString :=
  ["list-sessions".toList, "-F".toList, "#{session_name}".toList]

/-- The method `TmuxMux.ListSessions`; a `nil` slice is the empty list. -/
def ListSessions (tmux : Tmux) (pfx : GoString) : List GoString × GoError :=
  let out := (tmux listSessionsArgs).1
  let err := (tmux listSessionsArgs).2
  if err ≠ none then ([], err)
  else
    ((Split (TrimSpace out)).foldl (fun sessions line =>
      let line := TrimSpace line
      if line ≠ [] ∧ (pfx = [] ∨ HasPrefix line pfx = true) then sessions ++ [line]
      else sessions) [], none)

/-- The arguments of the `display-message` invocation of `QueryPaneSize`. -/
def queryPaneSizeArgs (target : GoString) : List GoString :=
  ["display-message".toList, "-t".toList, target, "-p".toList,
    "#{pane_width} #{pane_height}".toList]

/-- The method `TmuxMux.QueryPaneSize`; `width` and `height` are named results,
zero until `Sscanf` stores into them. -/
def QueryPaneSize (tmux : Tmux) (target : GoString) : Int × Int × Bool :=
  let out := (tmux (queryPaneSizeArgs target)).1
  let err := (tmux (queryPaneSizeArgs target)).2
  if err ≠ none then (0, 0, false)
  else Sscanf (TrimSpace out) 0 0

/-- The `args` of `CapturePaneOutput`; `fmt.Sprintf("-%d", scrollback)`. -/
def CapturePaneOutputArgs (target : GoString) (scrollback : Int) : List GoString :=
  let args := ["capture-pane".toList, "-t".toList, target, "-p".toList, "-e".toList]
  if scrollback > 0 then args ++ ["-S".toList, "-".toList ++ fmtD scrollback] else args

/-- The method `TmuxMux.CapturePaneOutput`. -/
def CapturePaneOutput (tmux : Tmux) (target : GoString) (scrollback : Int) :
    GoString × GoError :=
  let out := (tmux (CapturePaneOutputArgs target scrollback)).1
  let err := (tmux (CapturePaneOutputArgs target scrollback)).2
  if err ≠ none then ([], err) else (out, none)

/-! ## Decimal numerals -/

/-- The decimal numeral of a natural number, most significant digit first. -/
def decDigits (n : Nat) : List Char :=
  if _h : n < 10 then [Nat.digitChar n]
  else decDigits (n / 10) ++ [Nat.digitChar (n % 10)]
decreasing_by omega

/-- The decimal rendering of an integer, as Lean's own `toString` writes it. -/
def decimal (v : Int) : GoString := (toString v).toList

/-- The values a Go `int` can hold (64-bit). -/
def IsInt (v : Int) : Prop := -2 ^ 63 ≤ v ∧ v < 2 ^ 63

/-- A plain decimal numeral of `v`: a minus sign exactly when `v` is negative, then
one or more decimal digits and nothing else, the first digit being `0` only when it is
the only one. -/
def PlainNumeral (v : Int) (s : GoString) : Prop :=
  ∃ ds : List Char, s = (if v < 0 then ['-'] else []) ++ ds ∧ ds ≠ [] ∧
    (∀ c ∈ ds, c.isDigit = true) ∧ (ds.head? = some '0' → ds = ['0'])

/-- The two arguments `"-e", k+"="+v` the `range env` loop appends for one entry. -/
def envPair (kv : GoString × GoString) : List GoString :=
  ["-e".toList, kv.1 ++ "=".toList ++ kv.2]

/-- The leading arguments of `NewSession`, before those of the `range env` loop. -/
def newSessionHead (name startDir : GoString) : List GoString :=
  ["new-session".toList, "-d".toList, "-s".toList, name]
    ++ (if startDir ≠ [] then ["-c".toList, startDir] else [])

/-- A stand-in for `tmux` that reports its last argument back as its error text. -/
def echoLast : Tmux := fun args => ([], some (String.mk (args.getLastD [])))

/-- The overlay `{"A": "1", "B": "2"}`. -/
def envAB : GoMap := ⟨[("A".toList, "1".toList), ("B".toList, "2".toList)], by decide⟩

/-- The overlay `{"FOO": "bar"}`. -/
def envFoo : GoMap := ⟨[("FOO".toList, "bar".toList)], by decide⟩

/-- A decimal integer as the `%d` verb reads it: an optional sign, then one or more
decimal digits. -/
def IsNumeral (s : GoString) : Prop :=
  ∃ sgn ds : List Char, s = sgn ++ ds ∧ (sgn = [] ∨ sgn = ['+'] ∨ sgn = ['-']) ∧ ds ≠ [] ∧
    ∀ c ∈ ds, c ∈ decimalDigits

/-- A run of white space without a newline. -/
def Blanks (ws : List Char) : Prop := ∀ c ∈ ws, isSpace c = true ∧ c ≠ '\n'

/-- A text that begins with two decimal integers separated by white space other than a
newline; what follows the second integer is free. -/
def StartsWithTwoInts (t : GoString) : Prop :=
  ∃ a ws b rest : List Char, t = a ++ ws ++ b ++ rest ∧ IsNumeral a ∧ ws ≠ [] ∧ Blanks ws ∧
    IsNumeral b

/-- The lines of a reply, each trimmed, without the blank ones. -/
def trimmedLines (s : GoString) : List GoString :=
  ((Split s).map TrimSpace).filter (fun x => decide (x ≠ []))

/-! ## Theorems -/

theorem decDigits_lt {n : Nat} (h : n < 10) : decDigits n = [Nat.digitChar n] := by
  rw [decDigits]; simp [h]

theorem decDigits_ge {n : Nat} (h : 10 ≤ n) :
    decDigits n = decDigits (n / 10) ++ [Nat.digitChar (n % 10)] := by
  rw [decDigits]; simp [Nat.not_lt.mpr h]

theorem ofNat_digit {d : Nat} (h : d < 10) : Char.ofNat (48 + d) = Nat.digitChar d := by
  interval_cases d <;> decide

theorem ldigits_digit {d : Nat} (h : d < 10) : ldigits.getD d '0' = Nat.digitChar d := by
  interval_cases d <;> decide

theorem fmtIntegerLoop_eq (fuel : Nat) : ∀ (u : Nat) (buf : List Char), u < 10 ^ fuel →
    fmtIntegerLoop fuel u buf = decDigits u ++ buf := by
  induction fuel with
  | zero =>
    intro u buf h
    have h0 : u = 0 := by simpa using h
    subst h0
    rw [fmtIntegerLoop, decDigits_lt (by decide)]
    rfl
  | succ k ih =>
    intro u buf h
    rw [fmtIntegerLoop]
    by_cases hu : u ≥ 10
    · have hlt : u / 10 < 10 ^ k := by
        rw [Nat.div_lt_iff_lt_mul (by decide)]
        rw [pow_succ] at h
        exact h
      have hd : (48 + u - u / 10 * 10) % 256 = 48 + u % 10 := by omega
      simp only [hu, if_true]
      rw [ih _ _ hlt, hd, ofNat_digit (Nat.mod_lt _ (by decide)), decDigits_ge hu]
      simp
    · have hu' : u < 10 := by omega
      simp only [hu, if_false]
      rw [ldigits_digit hu', decDigits_lt hu']
      rfl

theorem toDigitsCore_eq (fuel : Nat) : ∀ (n : Nat) (ds : List Char), n < fuel →
    Nat.toDigitsCore 10 fuel n ds = decDigits n ++ ds := by
  induction fuel with
  | zero => intro n ds h; omega
  | succ k ih =>
    intro n ds h
    rw [Nat.toDigitsCore]
    by_cases hn : n / 10 = 0
    · have hlt : n < 10 := by omega
      simp only [hn, if_true]
      rw [decDigits_lt hlt, Nat.mod_eq_of_lt hlt]
      rfl
    · have hge : 10 ≤ n := by omega
      simp only [hn, if_false]
      rw [ih _ _ (by omega), decDigits_ge hge]
      simp

theorem decDigits_eq_repr (n : Nat) : decDigits n = (toString n).toList := by
  show decDigits n = (Nat.repr n).toList
  rw [Nat.repr, Nat.toDigits, toDigitsCore_eq _ _ _ (Nat.lt_succ_self n)]
  simp [List.asString]

theorem decimal_ofNat (n : Nat) : decimal (n : Int) = decDigits n := by
  rw [decDigits_eq_repr]; rfl

theorem decimal_negSucc (m : Nat) : decimal (Int.negSucc m) = '-' :: decDigits (m + 1) := by
  rw [decDigits_eq_repr]
  show ("-" ++ toString (m + 1)).toList = _
  simp [String.toList]

theorem fmtD_eq_decimal {v : Int} (h : IsInt v) : fmtD v = decimal v := by
  obtain ⟨h1, h2⟩ := h
  cases v with
  | ofNat n =>
    have hn : n < 2 ^ 63 := by
      have : (n : Int) < 2 ^ 63 := h2
      omega
    have hu : uint64 (Int.ofNat n) = n := by
      simp only [uint64, Int.ofNat_eq_coe]
      omega
    have hneg : ¬ int64 n < 0 := by
      simp only [int64]
      split <;> omega
    rw [show decimal (Int.ofNat n) = decDigits n from decimal_ofNat n, fmtD, hu, fmtInteger]
    simp only [hneg, decide_False, Bool.false_eq_true, if_false]
    rw [fmtIntegerLoop_eq 20 n [] (by omega)]
    simp
  | negSucc m =>
    have hm : m + 1 ≤ 2 ^ 63 := by
      have : -(2:Int) ^ 63 ≤ Int.negSucc m := h1
      rw [Int.negSucc_eq] at this
      omega
    have hu : uint64 (Int.negSucc m) = 2 ^ 64 - (m + 1) := by
      simp only [uint64, Int.negSucc_eq]
      omega
    have hneg : int64 (2 ^ 64 - (m + 1)) < 0 := by
      simp only [int64]
      split <;> omega
    rw [decimal_negSucc, fmtD, hu, fmtInteger]
    simp only [hneg, decide_True, if_true]
    have hmod : (2 ^ 64 - (2 ^ 64 - (m + 1))) % 2 ^ 64 = m + 1 := by omega
    rw [hmod, fmtIntegerLoop_eq 20 (m + 1) [] (by omega)]
    simp

theorem digitChar_isDigit {d : Nat} (h : d < 10) : (Nat.digitChar d).isDigit = true := by
  interval_cases d <;> decide

theorem digitChar_eq_zero {d : Nat} (h : d < 10) (h0 : Nat.digitChar d = '0') : d = 0 := by
  interval_cases d <;> first | rfl | exact absurd h0 (by decide)

theorem decDigits_ne_nil (n : Nat) : decDigits n ≠ [] := by
  by_cases h : n < 10
  · rw [decDigits_lt h]; simp
  · rw [decDigits_ge (by omega)]; simp

theorem decDigits_isDigit (n : Nat) : ∀ c ∈ decDigits n, c.isDigit = true := by
  induction n using Nat.strong_induction_on with
  | _ n ih =>
    by_cases h : n < 10
    · rw [decDigits_lt h]
      intro c hc
      rw [List.mem_singleton] at hc
      rw [hc]
      exact digitChar_isDigit h
    · rw [decDigits_ge (by omega)]
      intro c hc
      rcases List.mem_append.mp hc with hc | hc
      · exact ih (n / 10) (by omega) c hc
      · rw [List.mem_singleton] at hc
        rw [hc]
        exact digitChar_isDigit (Nat.mod_lt _ (by decide))

theorem decDigits_head (n : Nat) : (decDigits n).head? = some '0' → n = 0 := by
  induction n using Nat.strong_induction_on with
  | _ n ih =>
    by_cases h : n < 10
    · rw [decDigits_lt h]
      intro h0
      exact digitChar_eq_zero h (by simpa using h0)
    · rw [decDigits_ge (by omega)]
      intro h0
      have hne := decDigits_ne_nil (n / 10)
      rw [List.head?_append_of_ne_nil _ hne] at h0
      have := ih (n / 10) (by omega) h0
      omega

theorem plainNumeral_decimal (v : Int) : PlainNumeral v (decimal v) := by
  cases v with
  | ofNat n =>
    refine ⟨decDigits n, ?_, decDigits_ne_nil n, decDigits_isDigit n, ?_⟩
    · have : ¬ (Int.ofNat n < 0) := by simp
      simp only [this, if_false]
      exact decimal_ofNat n
    · intro h0
      rw [decDigits_head n h0]
      rw [decDigits_lt (by decide)]
      rfl
  | negSucc m =>
    refine ⟨decDigits (m + 1), ?_, decDigits_ne_nil _, decDigits_isDigit _, ?_⟩
    · have : Int.negSucc m < 0 := Int.negSucc_lt_zero m
      simp only [this, if_true]
      exact decimal_negSucc m
    · intro h0
      have := decDigits_head _ h0
      omega

/-- C1: for all Go ints `button`, `col`, `row` (zero and negative ones included) and
every `release`, `SendSGRMouse` runs `send-keys -t target -l seq` where `seq` is the
rune 0x1B, then `[<`, the decimal rendering of `button`, `;`, that of `col`, `;`, that of
`row`, and a final `m` when `release` is set and `M` otherwise; each rendering is a plain
numeral (optional minus sign, digits, no leading zero). -/
theorem SendSGRMouse_seq (tmux : Tmux) (target : GoString) (button col row : Int)
    (release : Bool) (hb : IsInt button) (hc : IsInt col) (hr : IsInt row) :
    SendSGRMouse tmux target button col row release
        = (tmux ["send-keys".toList, "-t".toList, target, "-l".toList,
            [Char.ofNat 0x1B, '[', '<'] ++ decimal button ++ [';'] ++ decimal col ++ [';']
              ++ decimal row ++ [if release then 'm' else 'M']]).2
      ∧ PlainNumeral button (decimal button) ∧ PlainNumeral col (decimal col)
      ∧ PlainNumeral row (decimal row) := by
  refine ⟨?_, plainNumeral_decimal _, plainNumeral_decimal _, plainNumeral_decimal _⟩
  rw [SendSGRMouse, sgrMouseSeq, fmtD_eq_decimal hb, fmtD_eq_decimal hc, fmtD_eq_decimal hr]
  cases release <;> rfl

/-- Witness for C1: a press of button 0 at column 12 and row -5 injects `ESC [<0;12;-5M`. -/
theorem SendSGRMouse_seq_witness :
    SendSGRMouse echoLast "t".toList 0 12 (-5) false = some "\x1b[<0;12;-5M" :=
  (SendSGRMouse_seq echoLast "t".toList 0 12 (-5) false
    (by constructor <;> decide) (by constructor <;> decide) (by constructor <;> decide)).1.trans
    (by decide)

/-! ### `ListSessions` -/

theorem foldl_keep (P : GoString → Prop) [DecidablePred P] (f : GoString → GoString)
    (l : List GoString) : ∀ init : List GoString,
    l.foldl (fun acc line => if P (f line) then acc ++ [f line] else acc) init
      = init ++ (l.map f).filter (fun x => decide (P x)) := by
  induction l with
  | nil => intro init; simp
  | cons a t ih =>
    intro init
    rw [List.foldl_cons, ih]
    by_cases h : P (f a)
    · simp [h]
    · simp [h]

/-- `ListSessions` as a filter: without an error, the lines of the trimmed reply, each
trimmed, keeping the non-empty ones that start with the prefix. -/
theorem ListSessions_eq (tmux : Tmux) (pfx : GoString) :
    ListSessions tmux pfx
      = if (tmux listSessionsArgs).2 ≠ none then ([], (tmux listSessionsArgs).2)
        else (((Split (TrimSpace (tmux listSessionsArgs).1)).map TrimSpace).filter
          (fun x => decide (x ≠ [] ∧ (pfx = [] ∨ HasPrefix x pfx = true))), none) := by
  by_cases h : (tmux listSessionsArgs).2 ≠ none
  · simp only [ListSessions, if_pos h]
  · have := foldl_keep (fun x => x ≠ [] ∧ (pfx = [] ∨ HasPrefix x pfx = true)) TrimSpace
      (Split (TrimSpace (tmux listSessionsArgs).1)) []
    simp only [List.nil_append] at this
    simp only [ListSessions, if_neg h, this]

theorem HasPrefix_nil (x : GoString) : HasPrefix x [] = true := by
  simp [HasPrefix]

theorem keep_iff (pfx x : GoString) :
    (x ≠ [] ∧ (pfx = [] ∨ HasPrefix x pfx = true)) ↔ (x ≠ [] ∧ HasPrefix x pfx = true) := by
  constructor
  · rintro ⟨h1, h2 | h2⟩
    · exact ⟨h1, by rw [h2]; exact HasPrefix_nil x⟩
    · exact ⟨h1, h2⟩
  · rintro ⟨h1, h2⟩
    exact ⟨h1, Or.inr h2⟩

/-- C2: for every listing reply and every prefix `p`, `ListSessions p` is
`ListSessions ""` with only the elements that start with `p` kept, in the same order
(and with the same error); so every returned element starts with `p`, and the result for
`p` is a sublist of the result for the empty prefix. -/
theorem ListSessions_filter (tmux : Tmux) (pfx : GoString) :
    (ListSessions tmux pfx).1
        = (ListSessions tmux []).1.filter (fun x => HasPrefix x pfx)
      ∧ (ListSessions tmux pfx).2 = (ListSessions tmux []).2
      ∧ (∀ x ∈ (ListSessions tmux pfx).1, pfx <+: x)
      ∧ List.Sublist (ListSessions tmux pfx).1 (ListSessions tmux []).1 := by
  have key : (ListSessions tmux pfx).1
      = (ListSessions tmux []).1.filter (fun x => HasPrefix x pfx) := by
    rw [ListSessions_eq, ListSessions_eq]
    split
    · rfl
    · simp only [keep_iff, List.filter_filter]
      congr 1
      funext x
      by_cases h1 : x = [] <;> by_cases h2 : HasPrefix x pfx = true <;>
        simp [h1, h2, HasPrefix_nil]
  refine ⟨key, ?_, ?_, ?_⟩
  · rw [ListSessions_eq, ListSessions_eq]
    split <;> rfl
  · intro x hx
    rw [key, List.mem_filter] at hx
    exact List.isPrefixOf_iff_prefix.mp hx.2
  · rw [key]
    exact List.filter_sublist _

theorem Split_nil : Split [] = [[]] := rfl

theorem Split_cons_newline (cs : GoString) : Split ('\n' :: cs) = [] :: Split cs := by
  simp [Split, Count, genSplit, cutLine]

theorem genSplit_cons {c : Char} (hc : c ≠ '\n') (n : Nat) (s : GoString) :
    ∃ l ls, genSplit n s = l :: ls ∧ genSplit n (c :: s) = (c :: l) :: ls := by
  cases n with
  | zero => exact ⟨s, [], rfl, rfl⟩
  | succ k =>
    rcases hcut : cutLine s with ⟨a, _ | rest⟩
    · refine ⟨s, [], ?_, ?_⟩
      · simp [genSplit, hcut]
      · simp [genSplit, cutLine, hc, hcut]
    · refine ⟨a, genSplit k rest, ?_, ?_⟩
      · simp [genSplit, hcut]
      · simp [genSplit, cutLine, hc, hcut]

theorem Split_cons {c : Char} (hc : c ≠ '\n') (s : GoString) :
    ∃ l ls, Split s = l :: ls ∧ Split (c :: s) = (c :: l) :: ls := by
  have hcount : Count (c :: s) = Count s := by
    simp [Count, List.count_cons, Ne.symm hc]
  unfold Split
  rw [hcount]
  exact genSplit_cons hc _ _

theorem Split_ne_nil (s : GoString) : Split s ≠ [] := by
  cases s with
  | nil => simp [Split_nil]
  | cons c cs =>
    by_cases hc : c = '\n'
    · subst hc; simp [Split_cons_newline]
    · obtain ⟨l, ls, _, h2⟩ := Split_cons hc cs
      simp [h2]

theorem Split_concat_newline (s : GoString) : Split (s ++ ['\n']) = Split s ++ [[]] := by
  induction s with
  | nil => rfl
  | cons c cs ih =>
    by_cases hc : c = '\n'
    · subst hc
      rw [List.cons_append, Split_cons_newline, Split_cons_newline, ih]
      rfl
    · obtain ⟨l, ls, h1, h2⟩ := Split_cons hc cs
      obtain ⟨l', ls', h1', h2'⟩ := Split_cons hc (cs ++ ['\n'])
      rw [List.cons_append, h2', h2]
      rw [ih, h1] at h1'
      simp only [List.cons_append, List.cons.injEq] at h1'
      rw [← h1'.1, ← h1'.2]
      rfl

theorem Split_concat {c : Char} (hc : c ≠ '\n') (s : GoString) :
    ∃ ls l, Split s = ls ++ [l] ∧ Split (s ++ [c]) = ls ++ [l ++ [c]] := by
  induction s with
  | nil =>
    refine ⟨[], [], rfl, ?_⟩
    obtain ⟨l, ls, h1, h2⟩ := Split_cons hc []
    rw [Split_nil] at h1
    simp only [List.cons.injEq] at h1
    rw [List.nil_append, h2, ← h1.1, ← h1.2]
    rfl
  | cons a cs ih =>
    obtain ⟨ls, l, h1, h2⟩ := ih
    by_cases ha : a = '\n'
    · subst ha
      refine ⟨[] :: ls, l, ?_, ?_⟩
      · rw [Split_cons_newline, h1]; rfl
      · rw [List.cons_append, Split_cons_newline, h2]; rfl
    · obtain ⟨x, xs, e1, e2⟩ := Split_cons ha cs
      obtain ⟨y, ys, f1, f2⟩ := Split_cons ha (cs ++ [c])
      rw [List.cons_append, f2, e2]
      rw [h1] at e1
      rw [h2] at f1
      cases ls with
      | nil =>
        simp only [List.nil_append, List.cons.injEq] at e1 f1
        refine ⟨[], a :: x, by rw [← e1.2]; rfl, ?_⟩
        rw [← f1.1, ← f1.2, ← e1.1]
        rfl
      | cons z zs =>
        simp only [List.cons_append, List.cons.injEq] at e1 f1
        refine ⟨(a :: z) :: zs, l, ?_, ?_⟩
        · rw [← e1.1, ← e1.2]; rfl
        · rw [← f1.1, ← f1.2]; rfl

theorem TrimSpace_nil : TrimSpace [] = [] := rfl

theorem TrimSpace_cons_space {c : Char} (hc : isSpace c = true) (l : GoString) :
    TrimSpace (c :: l) = TrimSpace l := by
  simp [TrimSpace, List.dropWhile_cons, hc]

theorem TrimSpace_concat_space {c : Char} (hc : isSpace c = true) (l : GoString) :
    TrimSpace (l ++ [c]) = TrimSpace l := by
  unfold TrimSpace
  induction l with
  | nil => simp [List.dropWhile_cons, hc]
  | cons a t ih =>
    by_cases ha : isSpace a = true
    · simpa [List.dropWhile_cons, ha] using ih
    · have e1 : List.dropWhile isSpace (a :: t ++ [c]) = (a :: t) ++ [c] := by
        simp [List.dropWhile_cons, ha]
      have e2 : List.dropWhile isSpace (a :: t) = a :: t := by
        simp [List.dropWhile_cons, ha]
      rw [e1, e2, List.rdropWhile_concat_pos _ _ _ hc]

theorem trimmedLines_cons_space {c : Char} (hc : isSpace c = true) (s : GoString) :
    trimmedLines (c :: s) = trimmedLines s := by
  unfold trimmedLines
  by_cases hn : c = '\n'
  · subst hn
    rw [Split_cons_newline]
    simp [TrimSpace_nil]
  · obtain ⟨l, ls, h1, h2⟩ := Split_cons hn s
    rw [h1, h2]
    simp only [List.map_cons, TrimSpace_cons_space hc]

theorem trimmedLines_concat_space {c : Char} (hc : isSpace c = true) (s : GoString) :
    trimmedLines (s ++ [c]) = trimmedLines s := by
  unfold trimmedLines
  by_cases hn : c = '\n'
  · subst hn
    rw [Split_concat_newline]
    simp [TrimSpace_nil]
  · obtain ⟨ls, l, h1, h2⟩ := Split_concat hn s
    rw [h1, h2]
    simp only [List.map_append, List.map_cons, List.map_nil, TrimSpace_concat_space hc]

theorem trimmedLines_dropWhile (s : GoString) :
    trimmedLines (s.dropWhile isSpace) = trimmedLines s := by
  induction s with
  | nil => rfl
  | cons c cs ih =>
    by_cases hc : isSpace c = true
    · rw [List.dropWhile_cons_of_pos hc, ih, trimmedLines_cons_space hc]
    · rw [List.dropWhile_cons_of_neg hc]

theorem trimmedLines_rdropWhile (s : GoString) :
    trimmedLines (s.rdropWhile isSpace) = trimmedLines s := by
  induction s using List.reverseRecOn with
  | nil => rfl
  | append_singleton l c ih =>
    by_cases hc : isSpace c = true
    · rw [List.rdropWhile_concat_pos _ _ _ hc, ih, trimmedLines_concat_space hc]
    · rw [List.rdropWhile_concat_neg _ _ _ hc]

/-- Trimming the whole reply first does not change its non-blank trimmed lines. -/
theorem trimmedLines_TrimSpace (s : GoString) : trimmedLines (TrimSpace s) = trimmedLines s := by
  unfold TrimSpace
  rw [trimmedLines_rdropWhile, trimmedLines_dropWhile]

theorem TrimSpace_not_blank (l : GoString) (h : TrimSpace l ≠ []) :
    ∃ c ∈ TrimSpace l, isSpace c = false := by
  unfold TrimSpace at h ⊢
  refine ⟨_, List.getLast_mem h, ?_⟩
  have := List.rdropWhile_last_not isSpace (l.dropWhile isSpace) h
  simpa using this

/-- `ListSessions` in terms of the lines of the untrimmed reply. -/
theorem ListSessions_lines (tmux : Tmux) (pfx : GoString) :
    ListSessions tmux pfx
      = if (tmux listSessionsArgs).2 ≠ none then ([], (tmux listSessionsArgs).2)
        else (((Split (tmux listSessionsArgs).1).map TrimSpace).filter
          (fun x => decide (x ≠ [] ∧ HasPrefix x pfx = true)), none) := by
  rw [ListSessions_eq]
  split
  · rfl
  · have h := trimmedLines_TrimSpace (tmux listSessionsArgs).1
    unfold trimmedLines at h
    have e : ∀ l : List GoString,
        l.filter (fun x => decide (x ≠ [] ∧ (pfx = [] ∨ HasPrefix x pfx = true)))
          = (l.filter (fun x => decide (x ≠ []))).filter (fun x => HasPrefix x pfx) := by
      intro l
      simp only [keep_iff]
      rw [List.filter_filter]
      congr 1
      funext x
      by_cases h1 : x = [] <;> by_cases h2 : HasPrefix x pfx = true <;>
        simp [h1, h2]
    have e' : ∀ l : List GoString,
        l.filter (fun x => decide (x ≠ [] ∧ HasPrefix x pfx = true))
          = (l.filter (fun x => decide (x ≠ []))).filter (fun x => HasPrefix x pfx) := by
      intro l
      rw [List.filter_filter]
      congr 1
      funext x
      by_cases h1 : x = [] <;> by_cases h2 : HasPrefix x pfx = true <;>
        simp [h1, h2]
    rw [e, e', h]

/-- C3 (as amended): for every listing reply and every prefix, every line of the reply
whose trimmed form is non-empty and starts with the prefix is returned by `ListSessions`
in that trimmed form; a non-empty line without leading or trailing white space that starts
with the prefix is therefore returned as it stands. -/
theorem ListSessions_complete (tmux : Tmux) (pfx line : GoString)
    (herr : (tmux listSessionsArgs).2 = none)
    (hline : line ∈ Split (tmux listSessionsArgs).1)
    (hne : TrimSpace line ≠ [])
    (hpfx : pfx <+: TrimSpace line) :
    TrimSpace line ∈ (ListSessions tmux pfx).1
      ∧ (TrimSpace line = line → line ∈ (ListSessions tmux pfx).1) := by
  have h : TrimSpace line ∈ (ListSessions tmux pfx).1 := by
    rw [ListSessions_lines]
    simp only [herr, ne_eq, not_true_eq_false, if_false]
    rw [List.mem_filter]
    refine ⟨List.mem_map_of_mem _ hline, ?_⟩
    have hp : HasPrefix (TrimSpace line) pfx = true := List.isPrefixOf_iff_prefix.mpr hpfx
    simp [hne, hp]
  exact ⟨h, fun e => e ▸ h⟩

/-- Witness for C3 (as amended): the reply `" dev\nmain\n"` and the prefix `"d"`. -/
theorem ListSessions_complete_witness :
    TrimSpace " dev".toList ∈ (ListSessions (fun _ => (" dev\nmain\n".toList, none)) "d".toList).1
      ∧ (TrimSpace " dev".toList = " dev".toList →
          " dev".toList ∈ (ListSessions (fun _ => (" dev\nmain\n".toList, none)) "d".toList).1) :=
  ListSessions_complete (fun _ => (" dev\nmain\n".toList, none)) "d".toList " dev".toList
    rfl (by decide) (by decide) (by decide)

/-- Counterexample to C3 as stated: in the reply `" dev\n"` the line `" dev"` is not
blank and starts with the empty prefix and with the prefix `" d"`, yet `ListSessions("")`
returns `["dev"]`, which does not hold that line, and `ListSessions(" d")` returns
nothing. -/
theorem ListSessions_complete_counterexample :
    " dev".toList ∈ Split " dev\n".toList
      ∧ (∃ c ∈ " dev".toList, isSpace c = false)
      ∧ ([] : GoString) <+: " dev".toList
      ∧ " d".toList <+: " dev".toList
      ∧ ListSessions (fun _ => (" dev\n".toList, none)) [] = (["dev".toList], none)
      ∧ " dev".toList ∉ (ListSessions (fun _ => (" dev\n".toList, none)) []).1
      ∧ ListSessions (fun _ => (" dev\n".toList, none)) " d".toList = ([], none) := by
  refine ⟨by decide, ⟨'d', by decide, by decide⟩, by decide, by decide, by decide, by decide,
    by decide⟩

/-- C4: `ListSessions` never returns an empty or white-space-only name, and without an
error its result is the sequence of the reply's lines, each trimmed, with the blank ones
and the ones not starting with the prefix removed, in listing order, nothing reordered
and no duplicate dropped. -/
theorem ListSessions_order (tmux : Tmux) (pfx : GoString) :
    (∀ x ∈ (ListSessions tmux pfx).1, x ≠ [] ∧ ∃ c ∈ x, isSpace c = false)
      ∧ ((tmux listSessionsArgs).2 = none →
          (ListSessions tmux pfx).1
            = ((Split (tmux listSessionsArgs).1).map TrimSpace).filter
                (fun x => decide (x ≠ [] ∧ HasPrefix x pfx = true))) := by
  constructor
  · intro x hx
    rw [ListSessions_lines] at hx
    by_cases herr : (tmux listSessionsArgs).2 = none
    · simp only [herr, ne_eq, not_true_eq_false, if_false] at hx
      rw [List.mem_filter, List.mem_map] at hx
      obtain ⟨⟨line, _, rfl⟩, hk⟩ := hx
      have hne : TrimSpace line ≠ [] := by simpa using (of_decide_eq_true hk).1
      exact ⟨hne, TrimSpace_not_blank line hne⟩
    · simp [herr] at hx
  · intro herr
    rw [ListSessions_lines]
    simp only [herr, ne_eq, not_true_eq_false, if_false]

/-- C5: `ListSessions` returns an error exactly when the `list-sessions` invocation
fails, and then the invocation's error with no list; when the invocation succeeds an
all-white-space reply, the empty reply included, gives the empty sequence and no error. -/
theorem ListSessions_error_iff (tmux : Tmux) (pfx : GoString) :
    ((ListSessions tmux pfx).2 ≠ none ↔ (tmux listSessionsArgs).2 ≠ none)
      ∧ (ListSessions tmux pfx).2 = (tmux listSessionsArgs).2
      ∧ ((ListSessions tmux pfx).2 ≠ none → (ListSessions tmux pfx).1 = [])
      ∧ (tmux listSessionsArgs = ([], none) → ListSessions tmux pfx = ([], none))
      ∧ ((tmux listSessionsArgs).2 = none → (∀ c ∈ (tmux listSessionsArgs).1, isSpace c = true) →
          ListSessions tmux pfx = ([], none)) := by
  have hws : (tmux listSessionsArgs).2 = none →
      (∀ c ∈ (tmux listSessionsArgs).1, isSpace c = true) →
      ListSessions tmux pfx = ([], none) := by
    intro herr hall
    rw [ListSessions_eq]
    have ht : TrimSpace (tmux listSessionsArgs).1 = [] := by
      unfold TrimSpace
      rw [List.dropWhile_eq_nil_iff.mpr hall]
      rfl
    simp [herr, ht, Split_nil, TrimSpace_nil]
  have herr2 : (ListSessions tmux pfx).2 = (tmux listSessionsArgs).2 := by
    rw [ListSessions_eq]
    by_cases herr : (tmux listSessionsArgs).2 = none
    · simp [herr]
    · simp [herr]
  refine ⟨by rw [herr2], herr2, ?_, ?_, hws⟩
  · intro h
    rw [herr2] at h
    rw [ListSessions_eq]
    simp [h]
  · intro h
    apply hws
    · rw [h]
    · rw [h]; intro c hc; cases hc

/-! ### `NewSession` -/

theorem foldl_envPair (order : List (GoString × GoString)) : ∀ args : List GoString,
    order.foldl (fun args kv => args ++ ["-e".toList, kv.1 ++ "=".toList ++ kv.2]) args
      = args ++ (order.map envPair).flatten := by
  induction order with
  | nil => intro args; simp
  | cons kv t ih =>
    intro args
    rw [List.foldl_cons, ih]
    simp [envPair]

theorem NewSessionArgs_eq (name startDir : GoString) (order : List (GoString × GoString)) :
    NewSessionArgs name startDir order
      = newSessionHead name startDir ++ (order.map envPair).flatten := by
  unfold NewSessionArgs newSessionHead
  simp only [foldl_envPair]
  by_cases h : startDir = []
  · simp [h]
  · simp [h]

/-- C7: whatever order the `range env` loop visits the overlay in, the argument list of
`NewSession` is `new-session -d -s name`, then `-c startDir` exactly when `startDir` is
not empty, then the pair `-e`, `k=v` of each visited entry and nothing else; the visited
entries are the overlay's entries, each once. With an empty `startDir` and an overlay
without entries the list is `new-session -d -s name`. -/
theorem NewSessionArgs_shape (tmux : Tmux) (name startDir : GoString) (env : GoMap)
    (order : List (GoString × GoString)) (h : RangeOrder env order) :
    NewSession tmux name startDir order = (tmux (NewSessionArgs name startDir order)).2
      ∧ NewSessionArgs name startDir order
        = ["new-session".toList, "-d".toList, "-s".toList, name]
          ++ (if startDir ≠ [] then ["-c".toList, startDir] else [])
          ++ (order.map (fun kv => ["-e".toList, kv.1 ++ "=".toList ++ kv.2])).flatten
      ∧ (∀ kv, kv ∈ order ↔ kv ∈ env.entries)
      ∧ order.Nodup ∧ order.length = env.entries.length
      ∧ (startDir = [] → env.entries = [] →
          NewSessionArgs name startDir order
            = ["new-session".toList, "-d".toList, "-s".toList, name]) := by
  refine ⟨rfl, ?_, ?_, ?_, h.length_eq, ?_⟩
  · rw [NewSessionArgs_eq]; rfl
  · intro kv
    exact h.mem_iff
  · have hnd : env.entries.Nodup := List.Nodup.of_map _ env.nodupKeys
    exact h.nodup_iff.mpr hnd
  · intro hd he
    unfold RangeOrder at h
    rw [he] at h
    rw [List.perm_nil.mp h, NewSessionArgs_eq, hd]
    rfl

/-- Witness for C7: the session `t1` with no start directory and `{"FOO": "bar"}`. -/
theorem NewSessionArgs_shape_witness :
    NewSessionArgs "t1".toList [] [("FOO".toList, "bar".toList)]
      = ["new-session".toList, "-d".toList, "-s".toList, "t1".toList, "-e".toList,
          "FOO=bar".toList] :=
  (NewSessionArgs_shape (fun _ => ([], none)) "t1".toList [] envFoo
    [("FOO".toList, "bar".toList)] (List.Perm.refl _)).2.1

/-- Counterexample to C6 as stated: the overlay `{"A": "1", "B": "2"}` may be visited as
`A, B` or as `B, A`, and the two argument lists differ. -/
theorem NewSessionArgs_order_counterexample :
    RangeOrder envAB [("A".toList, "1".toList), ("B".toList, "2".toList)]
      ∧ RangeOrder envAB [("B".toList, "2".toList), ("A".toList, "1".toList)]
      ∧ NewSessionArgs "t1".toList [] [("A".toList, "1".toList), ("B".toList, "2".toList)]
          = ["new-session".toList, "-d".toList, "-s".toList, "t1".toList,
              "-e".toList, "A=1".toList, "-e".toList, "B=2".toList]
      ∧ NewSessionArgs "t1".toList [] [("B".toList, "2".toList), ("A".toList, "1".toList)]
          = ["new-session".toList, "-d".toList, "-s".toList, "t1".toList,
              "-e".toList, "B=2".toList, "-e".toList, "A=1".toList]
      ∧ NewSessionArgs "t1".toList [] [("A".toList, "1".toList), ("B".toList, "2".toList)]
          ≠ NewSessionArgs "t1".toList [] [("B".toList, "2".toList), ("A".toList, "1".toList)] := by
  refine ⟨List.Perm.refl _, List.Perm.swap _ _ _, by decide, by decide, by decide⟩

/-- C6 (as amended): the argument list of `NewSession` is a function of `name`,
`startDir` and the order in which the `range env` loop visits the overlay. For two
visiting orders of one overlay the lists have the same leading part, the same length and
the same `-e`, `k=v` pairs up to the order of the pairs; they are equal when the overlay
has at most one entry. -/
theorem NewSessionArgs_perm (name startDir : GoString) (env : GoMap)
    (o₁ o₂ : List (GoString × GoString)) (h₁ : RangeOrder env o₁) (h₂ : RangeOrder env o₂) :
    (∃ pairs₁ pairs₂ : List (List GoString),
        NewSessionArgs name startDir o₁ = newSessionHead name startDir ++ pairs₁.flatten
          ∧ NewSessionArgs name startDir o₂ = newSessionHead name startDir ++ pairs₂.flatten
          ∧ pairs₁ = o₁.map envPair ∧ pairs₂ = o₂.map envPair
          ∧ pairs₁.Perm pairs₂)
      ∧ (NewSessionArgs name startDir o₁).length = (NewSessionArgs name startDir o₂).length
      ∧ (NewSessionArgs name startDir o₁).Perm (NewSessionArgs name startDir o₂)
      ∧ (env.entries.length ≤ 1 →
          NewSessionArgs name startDir o₁ = NewSessionArgs name startDir o₂) := by
  have hp : o₁.Perm o₂ := h₁.trans h₂.symm
  have hpairs : (o₁.map envPair).Perm (o₂.map envPair) := hp.map _
  have hargs : (NewSessionArgs name startDir o₁).Perm (NewSessionArgs name startDir o₂) := by
    rw [NewSessionArgs_eq, NewSessionArgs_eq]
    exact List.Perm.append_left _ hpairs.flatten
  refine ⟨⟨_, _, NewSessionArgs_eq _ _ _, NewSessionArgs_eq _ _ _, rfl, rfl, hpairs⟩,
    hargs.length_eq, hargs, ?_⟩
  intro hlen
  have e : o₁ = o₂ := by
    have hl₁ : o₁.length ≤ 1 := by rw [h₁.length_eq]; exact hlen
    match o₁, hp, hl₁ with
    | [], hp, _ => exact (List.nil_perm.mp hp).symm
    | [a], hp, _ => exact List.singleton_perm.mp hp
  rw [e]

/-- Witness for C6 (as amended): the overlay `{"A": "1", "B": "2"}` visited both ways. -/
theorem NewSessionArgs_perm_witness :
    (NewSessionArgs "t1".toList "/tmp".toList
        [("A".toList, "1".toList), ("B".toList, "2".toList)]).Perm
      (NewSessionArgs "t1".toList "/tmp".toList
        [("B".toList, "2".toList), ("A".toList, "1".toList)]) :=
  (NewSessionArgs_perm "t1".toList "/tmp".toList envAB
    [("A".toList, "1".toList), ("B".toList, "2".toList)]
    [("B".toList, "2".toList), ("A".toList, "1".toList)]
    (List.Perm.refl _) (List.Perm.swap _ _ _)).2.2.1

/-! ### `CapturePaneOutput` -/

/-- C10: the argument list of `CapturePaneOutput` is `capture-pane -t target -p -e` when
`scrollback` is zero or negative, and that list followed by `-S` and `-` with the decimal
rendering of `scrollback` when it is positive; `-e` is present in both cases. The method
returns the invocation's output unchanged with no error on success, and the empty string
with the invocation's error on failure. -/
theorem CapturePaneOutput_spec (tmux : Tmux) (target : GoString) (scrollback : Int)
    (hs : IsInt scrollback) :
    (scrollback ≤ 0 → CapturePaneOutputArgs target scrollback
        = ["capture-pane".toList, "-t".toList, target, "-p".toList, "-e".toList])
      ∧ (0 < scrollback → CapturePaneOutputArgs target scrollback
        = ["capture-pane".toList, "-t".toList, target, "-p".toList, "-e".toList,
            "-S".toList, '-' :: decimal scrollback])
      ∧ "-e".toList ∈ (CapturePaneOutputArgs target scrollback).drop 3
      ∧ ((tmux (CapturePaneOutputArgs target scrollback)).2 = none →
          CapturePaneOutput tmux target scrollback
            = ((tmux (CapturePaneOutputArgs target scrollback)).1, none))
      ∧ ((tmux (CapturePaneOutputArgs target scrollback)).2 ≠ none →
          CapturePaneOutput tmux target scrollback
            = ([], (tmux (CapturePaneOutputArgs target scrollback)).2)) := by
  refine ⟨?_, ?_, ?_, ?_, ?_⟩
  · intro h
    have : ¬ scrollback > 0 := by omega
    simp [CapturePaneOutputArgs, this]
  · intro h
    simp only [CapturePaneOutputArgs, gt_iff_lt, h, if_true, fmtD_eq_decimal hs]
    rfl
  · unfold CapturePaneOutputArgs
    split <;> simp
  · intro h
    simp [CapturePaneOutput, h]
  · intro h
    simp [CapturePaneOutput, h]

/-- Witness for C10: a scrollback of 100 lines. -/
theorem CapturePaneOutput_spec_witness :
    CapturePaneOutputArgs "t".toList 100
      = ["capture-pane".toList, "-t".toList, "t".toList, "-p".toList, "-e".toList,
          "-S".toList, '-' :: decimal 100] :=
  (CapturePaneOutput_spec (fun _ => ([], none)) "t".toList 100
    (by constructor <;> decide)).2.1 (by decide)

/-! ### `QueryPaneSize`: scanning a well-formed reply -/

theorem digitChar_facts {d : Nat} (h : d < 10) :
    isSpace (Nat.digitChar d) = false ∧ Nat.digitChar d ≠ '\r' ∧ Nat.digitChar d ≠ '\n'
      ∧ Nat.digitChar d ≠ '+' ∧ Nat.digitChar d ≠ '-'
      ∧ Nat.digitChar d ∈ decimalDigits ∧ Nat.digitChar d ∉ sign
      ∧ 48 ≤ (Nat.digitChar d).toNat ∧ (Nat.digitChar d).toNat ≤ 57
      ∧ (Nat.digitChar d).toNat - 48 = d := by
  interval_cases d <;> decide

theorem decDigits_all (n : Nat) : ∀ c ∈ decDigits n, ∃ d, d < 10 ∧ c = Nat.digitChar d := by
  induction n using Nat.strong_induction_on with
  | _ n ih =>
    by_cases h : n < 10
    · rw [decDigits_lt h]
      intro c hc
      rw [List.mem_singleton] at hc
      exact ⟨n, h, hc⟩
    · rw [decDigits_ge (by omega)]
      intro c hc
      rcases List.mem_append.mp hc with hc | hc
      · exact ih (n / 10) (by omega) c hc
      · rw [List.mem_singleton] at hc
        exact ⟨n % 10, Nat.mod_lt _ (by decide), hc⟩

theorem decDigits_cons (n : Nat) :
    ∃ d t, d < 10 ∧ decDigits n = Nat.digitChar d :: t := by
  have hne := decDigits_ne_nil n
  cases hd : decDigits n with
  | nil => exact absurd hd hne
  | cons c t =>
    obtain ⟨d, hd10, hc⟩ := decDigits_all n c (by rw [hd]; exact List.mem_cons_self _ _)
    exact ⟨d, t, hd10, by rw [hc]⟩

theorem acceptAll_append (ok : List Char) (rest : List Char)
    (hrest : rest = [] ∨ ∃ c t, rest = c :: t ∧ c ∉ ok) :
    ∀ (ds buf : List Char), (∀ c ∈ ds, c ∈ ok) →
      acceptAll ok (ds ++ rest) buf = (rest, buf ++ ds) := by
  intro ds
  induction ds with
  | nil =>
    intro buf _
    rcases hrest with h | ⟨c, t, h, hc⟩
    · subst h; simp [acceptAll]
    · subst h; simp [acceptAll, hc]
  | cons a t ih =>
    intro buf hall
    have ha : a ∈ ok := hall a (List.mem_cons_self _ _)
    have ht : ∀ c ∈ t, c ∈ ok := fun c hc => hall c (List.mem_cons_of_mem _ hc)
    simp only [List.cons_append, acceptAll, ha, if_true]
    show acceptAll ok (t ++ rest) (buf ++ [a]) = _
    rw [ih _ ht]
    simp

theorem ParseUintLoop_append (a b : List Char) : ∀ n : Nat,
    ParseUintLoop (a ++ b) n = (ParseUintLoop a n).bind (ParseUintLoop b) := by
  induction a with
  | nil => intro n; rfl
  | cons c t ih =>
    intro n
    simp only [List.cons_append, ParseUintLoop]
    split
    · split
      · rfl
      · split
        · rfl
        · exact ih _
    · rfl

theorem ParseUintLoop_digit {d : Nat} (hd : d < 10) {n : Nat} (hn : n * 10 + d < 2 ^ 64) :
    ParseUintLoop [Nat.digitChar d] n = some (n * 10 + d) := by
  obtain ⟨_, _, _, _, _, _, _, h1, h2, h3⟩ := digitChar_facts hd
  have hc : ¬ n ≥ (2 ^ 64 - 1) / 10 + 1 := by omega
  have hm : (n * 10 + d) % 2 ^ 64 = n * 10 + d := Nat.mod_eq_of_lt hn
  have hr : ¬ (n * 10 + d < n * 10 ∨ n * 10 + d > 2 ^ 64 - 1) := by omega
  simp only [ParseUintLoop, h1, h2, h3, and_self, if_true, hc, if_false, hm, hr]

theorem ParseUintLoop_decDigits (n : Nat) (hn : n < 2 ^ 64) :
    ParseUintLoop (decDigits n) 0 = some n := by
  induction n using Nat.strong_induction_on with
  | _ n ih =>
    by_cases h : n < 10
    · rw [decDigits_lt h, ParseUintLoop_digit h (by omega)]
      simp
    · rw [decDigits_ge (by omega), ParseUintLoop_append, ih (n / 10) (by omega) (by omega)]
      simp only [Option.some_bind]
      rw [ParseUintLoop_digit (Nat.mod_lt _ (by decide)) (by omega)]
      congr 1
      omega

theorem ParseInt_decDigits (n : Nat) (hn : n < 2 ^ 63) :
    ParseInt (decDigits n) = some (n : Int) := by
  obtain ⟨d, t, hd, hcons⟩ := decDigits_cons n
  obtain ⟨_, _, _, hplus, hminus, _, _, _, _, _⟩ := digitChar_facts hd
  have hu : ParseUint (Nat.digitChar d :: t) = some n := by
    rw [← hcons, ParseUint, if_neg (decDigits_ne_nil n)]
    exact ParseUintLoop_decDigits n (by omega)
  have h64 : int64 n = (n : Int) := by
    simp only [int64]
    split <;> omega
  have hge : ¬ n ≥ 2 ^ 63 := by omega
  rw [hcons]
  simp only [ParseInt, hplus, hminus, if_false, hu, decide_False, Bool.not_false,
    Bool.true_and, hge, Bool.false_and, Bool.false_eq_true, h64]

theorem SkipSpace_nonspace {c : Char} (hs : isSpace c = false) (hr : c ≠ '\r')
    (hn : c ≠ '\n') (rest : List Char) : SkipSpace (c :: rest) = some (c :: rest) := by
  simp [SkipSpace, hs, hr, hn]

/-- Scanning the numeral of `n` with `%d` gives `n` and stops at the first rune that is
not a digit. -/
theorem scanInt_decDigits (n : Nat) (hn : n < 2 ^ 63) (rest : List Char)
    (hrest : rest = [] ∨ ∃ c t, rest = c :: t ∧ c ∉ decimalDigits) :
    scanInt (decDigits n ++ rest) = some ((n : Int), rest) := by
  obtain ⟨d, t, hd, hcons⟩ := decDigits_cons n
  obtain ⟨hs, hr, hnl, _, _, hdig, hsign, _, _, _⟩ := digitChar_facts hd
  have hall : ∀ c ∈ t, c ∈ decimalDigits := by
    intro c hc
    obtain ⟨e, he, rfl⟩ := decDigits_all n c (by rw [hcons]; exact List.mem_cons_of_mem _ hc)
    exact (digitChar_facts he).2.2.2.2.2.1
  have hp := ParseInt_decDigits n hn
  rw [hcons] at hp
  rw [hcons, List.cons_append, scanInt, SkipSpace_nonspace hs hr hnl]
  simp only [accept, hsign, if_false, scanNumber, hdig, if_true, List.nil_append]
  rw [acceptAll_append decimalDigits rest hrest t _ hall]
  simp only [List.singleton_append, hp]

theorem TrimSpace_id {c z : Char} (hc : isSpace c = false) (hz : isSpace z = false)
    (m : List Char) : TrimSpace (c :: (m ++ [z])) = c :: (m ++ [z]) := by
  unfold TrimSpace
  rw [List.dropWhile_cons_of_neg (by simp [hc]), ← List.cons_append,
    List.rdropWhile_concat_neg _ _ _ (by simp [hz])]

theorem decDigits_concat (n : Nat) :
    ∃ i d, d < 10 ∧ decDigits n = i ++ [Nat.digitChar d] := by
  by_cases h : n < 10
  · exact ⟨[], n, h, by rw [decDigits_lt h]; rfl⟩
  · exact ⟨decDigits (n / 10), n % 10, Nat.mod_lt _ (by decide), decDigits_ge (by omega)⟩

/-- The reply `"<w> <h>\n"` scans to `(w, h)`. -/
theorem Sscanf_decDigits (w h : Nat) (hw : w < 2 ^ 63) (hh : h < 2 ^ 63) (w₀ h₀ : Int) :
    Sscanf (TrimSpace (decDigits w ++ ' ' :: (decDigits h ++ ['\n']))) w₀ h₀
      = ((w : Int), (h : Int), true) := by
  obtain ⟨d, t, hd, hcons⟩ := decDigits_cons w
  obtain ⟨e, u, he, hcons'⟩ := decDigits_cons h
  obtain ⟨i, z, hz, hsnoc⟩ := decDigits_concat h
  have ht : TrimSpace (decDigits w ++ ' ' :: (decDigits h ++ ['\n']))
      = decDigits w ++ ' ' :: decDigits h := by
    have e1 : decDigits w ++ ' ' :: (decDigits h ++ ['\n'])
        = (Nat.digitChar d :: ((t ++ ' ' :: i) ++ [Nat.digitChar z])) ++ ['\n'] := by
      rw [hcons, hsnoc]; simp
    have e2 : decDigits w ++ ' ' :: decDigits h
        = Nat.digitChar d :: ((t ++ ' ' :: i) ++ [Nat.digitChar z]) := by
      rw [hcons, hsnoc]; simp
    rw [e1, TrimSpace_concat_space (by decide), e2]
    exact TrimSpace_id (digitChar_facts hd).1 (digitChar_facts hz).1 _
  have hskip : SkipSpace (decDigits w ++ ' ' :: decDigits h)
      = some (decDigits w ++ ' ' :: decDigits h) := by
    rw [hcons, List.cons_append]
    exact SkipSpace_nonspace (digitChar_facts hd).1 (digitChar_facts hd).2.1
      (digitChar_facts hd).2.2.1 _
  have hskip' : SkipSpace (decDigits h) = some (decDigits h) := by
    rw [hcons']
    exact SkipSpace_nonspace (digitChar_facts he).1 (digitChar_facts he).2.1
      (digitChar_facts he).2.2.1 _
  have hadv : advanceSpace (' ' :: decDigits h) = some (decDigits h) := by
    have hns : isSpace (Nat.digitChar e) = false := (digitChar_facts he).1
    rw [hcons']
    simp [advanceSpace, List.dropWhile_cons, hns]
    decide
  have h1 := scanInt_decDigits w hw (' ' :: decDigits h) (Or.inr ⟨' ', _, rfl, by decide⟩)
  have h2 := scanInt_decDigits h hh [] (Or.inl rfl)
  rw [List.append_nil] at h2
  rw [ht]
  simp only [Sscanf, hskip, h1, hadv, hskip', h2]

/-- C9: for all non-negative `w` and `h` that fit in a Go `int`, when the
`display-message` invocation succeeds with the reply made of the decimal rendering of
`w`, one space, the decimal rendering of `h` and a newline, `QueryPaneSize` returns
`(w, h, true)`; the reply `"80 24\n"` gives `(80, 24, true)`. -/
theorem QueryPaneSize_wellformed (tmux : Tmux) (target : GoString) (w h : Int)
    (hw0 : 0 ≤ w) (hw : IsInt w) (hh0 : 0 ≤ h) (hh : IsInt h)
    (hreply : tmux (queryPaneSizeArgs target)
      = (decimal w ++ " ".toList ++ decimal h ++ "\n".toList, none)) :
    QueryPaneSize tmux target = (w, h, true)
      ∧ QueryPaneSize (fun _ => ("80 24\n".toList, none)) target = (80, 24, true) := by
  refine ⟨?_, by rfl⟩
  obtain ⟨a, rfl⟩ := Int.eq_ofNat_of_zero_le hw0
  obtain ⟨b, rfl⟩ := Int.eq_ofNat_of_zero_le hh0
  have ha : a < 2 ^ 63 := by
    have := hw.2
    omega
  have hb : b < 2 ^ 63 := by
    have := hh.2
    omega
  have hout : (tmux (queryPaneSizeArgs target)).1
      = decDigits a ++ ' ' :: (decDigits b ++ ['\n']) := by
    rw [hreply, decimal_ofNat, decimal_ofNat]
    simp
  have herr : (tmux (queryPaneSizeArgs target)).2 = none := by rw [hreply]
  simp only [QueryPaneSize, herr, ne_eq, not_true_eq_false, if_false, hout]
  exact Sscanf_decDigits a b ha hb 0 0

/-- Witness for C9: a pane of 132 columns and 43 rows. -/
theorem QueryPaneSize_wellformed_witness :
    QueryPaneSize (fun _ => ("132 43\n".toList, none)) "t".toList = (132, 43, true)
      ∧ QueryPaneSize (fun _ => ("80 24\n".toList, none)) "t".toList = (80, 24, true) :=
  QueryPaneSize_wellformed (fun _ => ("132 43\n".toList, none)) "t".toList 132 43
    (by decide) (by constructor <;> decide) (by decide) (by constructor <;> decide)
    (by decide)

/-! ### `QueryPaneSize`: what a successful scan implies -/

theorem SkipSpace_inv : ∀ (inp r : List Char), SkipSpace inp = some r →
    ∃ ws, inp = ws ++ r ∧ Blanks ws := by
  intro inp
  induction inp with
  | nil =>
    intro r h
    simp only [SkipSpace, Option.some.injEq] at h
    exact ⟨[], by rw [← h]; rfl, by intro c hc; cases hc⟩
  | cons c rest ih =>
    intro r h
    rw [SkipSpace] at h
    split at h
    · rename_i hcr
      obtain ⟨ws, e, hb⟩ := ih r h
      refine ⟨c :: ws, by rw [e]; rfl, ?_⟩
      intro x hx
      rcases List.mem_cons.mp hx with hx | hx
      · rw [hx, hcr.1]; decide
      · exact hb x hx
    · split at h
      · cases h
      · rename_i hnl
        split at h
        · simp only [Option.some.injEq] at h
          exact ⟨[], by rw [← h]; rfl, by intro x hx; cases hx⟩
        · rename_i hsp
          obtain ⟨ws, e, hb⟩ := ih r h
          refine ⟨c :: ws, by rw [e]; rfl, ?_⟩
          intro x hx
          rcases List.mem_cons.mp hx with hx | hx
          · rw [hx]; exact ⟨by simpa using hsp, hnl⟩
          · exact hb x hx

theorem acceptAll_inv (ok : List Char) : ∀ (inp buf r tok : List Char),
    acceptAll ok inp buf = (r, tok) →
    ∃ ds, inp = ds ++ r ∧ tok = buf ++ ds ∧ ∀ c ∈ ds, c ∈ ok := by
  intro inp
  induction inp with
  | nil =>
    intro buf r tok h
    simp only [acceptAll, Prod.mk.injEq] at h
    exact ⟨[], by rw [← h.1]; rfl, by rw [← h.2]; simp, by intro c hc; cases hc⟩
  | cons a t ih =>
    intro buf r tok h
    rw [acceptAll] at h
    split at h
    · rename_i ha
      obtain ⟨ds, e1, e2, hall⟩ := ih _ _ _ h
      refine ⟨a :: ds, by rw [e1]; rfl, by rw [e2]; simp, ?_⟩
      intro c hc
      rcases List.mem_cons.mp hc with hc | hc
      · rw [hc]; exact ha
      · exact hall c hc
    · simp only [Prod.mk.injEq] at h
      exact ⟨[], by rw [← h.1]; rfl, by rw [← h.2]; simp, by intro c hc; cases hc⟩

theorem scanNumber_inv (inp buf r tok : List Char)
    (h : scanNumber decimalDigits inp buf = some (r, tok)) :
    ∃ ds, ds ≠ [] ∧ inp = ds ++ r ∧ (∀ c ∈ ds, c ∈ decimalDigits) := by
  cases inp with
  | nil => simp [scanNumber] at h
  | cons d t =>
    by_cases hd : d ∈ decimalDigits
    · simp only [scanNumber, accept, hd, if_true, Option.some.injEq] at h
      obtain ⟨ds, e1, _, hall⟩ := acceptAll_inv _ _ _ _ _ h
      refine ⟨d :: ds, by simp, by rw [e1]; rfl, ?_⟩
      intro c hc
      rcases List.mem_cons.mp hc with hc | hc
      · rw [hc]; exact hd
      · exact hall c hc
    · simp [scanNumber, accept, hd] at h

theorem scanInt_inv (inp r : List Char) (v : Int) (h : scanInt inp = some (v, r)) :
    ∃ ws a, inp = ws ++ a ++ r ∧ Blanks ws ∧ IsNumeral a := by
  rw [scanInt] at h
  split at h
  · cases h
  · cases h
  · rename_i c rest hskip
    obtain ⟨ws, e, hb⟩ := SkipSpace_inv _ _ hskip
    split at h
    · cases h
    · rename_i inp' tok hnum
      have hr : r = inp' := by
        split at h
        · cases h
        · simp only [Option.some.injEq, Prod.mk.injEq] at h
          exact h.2.symm
      by_cases hc : c ∈ sign
      · simp only [accept, hc, if_true] at hnum
        obtain ⟨ds, hne, e2, hall⟩ := scanNumber_inv _ _ _ _ hnum
        refine ⟨ws, c :: ds, ?_, hb, [c], ds, rfl, ?_, hne, hall⟩
        · rw [e, e2, hr]; simp
        · have : c = '+' ∨ c = '-' := by simpa [sign] using hc
          rcases this with h1 | h1
          · exact Or.inr (Or.inl (by rw [h1]))
          · exact Or.inr (Or.inr (by rw [h1]))
      · simp only [accept, hc, if_false] at hnum
        obtain ⟨ds, hne, e2, hall⟩ := scanNumber_inv _ _ _ _ hnum
        refine ⟨ws, ds, ?_, hb, [], ds, rfl, Or.inl rfl, hne, hall⟩
        rw [e, e2, hr]; simp

theorem advanceSpace_inv (inp r : List Char) (h : advanceSpace inp = some r) :
    (inp = [] ∧ r = []) ∨ ∃ ws, ws ≠ [] ∧ inp = ws ++ r ∧ Blanks ws := by
  cases inp with
  | nil =>
    simp only [advanceSpace, Option.some.injEq] at h
    exact Or.inl ⟨rfl, h.symm⟩
  | cons c rest =>
    right
    rw [advanceSpace] at h
    split at h
    · cases h
    · rename_i hsp
      split at h
      · cases h
      · rename_i hnl
        simp only [Option.some.injEq] at h
        refine ⟨c :: rest.takeWhile (fun x => isSpace x && x != '\n'), by simp, ?_, ?_⟩
        · rw [← h, List.cons_append, List.takeWhile_append_dropWhile]
        · intro x hx
          rcases List.mem_cons.mp hx with hx | hx
          · rw [hx]; exact ⟨by simpa using hsp, hnl⟩
          · have := List.mem_takeWhile_imp hx
            simpa using this

theorem TrimSpace_head (s : GoString) (c : Char) (r : List Char)
    (h : TrimSpace s = c :: r) : isSpace c = false := by
  unfold TrimSpace at h
  have hp : List.rdropWhile isSpace (s.dropWhile isSpace) <+: s.dropWhile isSpace :=
    List.rdropWhile_prefix isSpace _
  rw [h] at hp
  obtain ⟨x, hx⟩ := hp
  have hh := List.head?_dropWhile_not isSpace s
  rw [← hx] at hh
  simpa using hh

theorem Blanks_append {a b : List Char} (ha : Blanks a) (hb : Blanks b) : Blanks (a ++ b) := by
  intro c hc
  rcases List.mem_append.mp hc with hc | hc
  · exact ha c hc
  · exact hb c hc

theorem IsNumeral_ne_nil {a : List Char} (h : IsNumeral a) : a ≠ [] := by
  obtain ⟨sgn, ds, e, _, hne, _⟩ := h
  rw [e]
  simp [hne]

theorem IsNumeral_not_space {a : List Char} (h : IsNumeral a) :
    ∀ c ∈ a, isSpace c = false := by
  obtain ⟨sgn, ds, e, hs, _, hall⟩ := h
  have hd : ∀ c ∈ decimalDigits, isSpace c = false := by decide
  intro c hc
  rw [e] at hc
  rcases List.mem_append.mp hc with hc | hc
  · rcases hs with hs | hs | hs
    · rw [hs] at hc; cases hc
    · rw [hs, List.mem_singleton] at hc; rw [hc]; decide
    · rw [hs, List.mem_singleton] at hc; rw [hc]; decide
  · exact hd c (hall c hc)

/-- The shape of an input on which the first `%d` succeeds, when the input does not
start with white space: a numeral, then the input left. -/
theorem scanInt_first (t i₁ i₂ : List Char) (w : Int)
    (htrim : ∀ c r, t = c :: r → isSpace c = false)
    (h₁ : SkipSpace t = some i₁) (h₂ : scanInt i₁ = some (w, i₂)) :
    ∃ a, t = a ++ i₂ ∧ IsNumeral a := by
  obtain ⟨ws₀, e₀, hb₀⟩ := SkipSpace_inv _ _ h₁
  obtain ⟨ws₁, a, e₁, hb₁, ha⟩ := scanInt_inv _ _ _ h₂
  have hws : ws₀ ++ ws₁ = [] := by
    cases hw : ws₀ ++ ws₁ with
    | nil => rfl
    | cons x xs =>
      have hx : isSpace x = true :=
        (Blanks_append hb₀ hb₁ x (by rw [hw]; exact List.mem_cons_self _ _)).1
      have ht : t = x :: (xs ++ a ++ i₂) := by
        rw [e₀, e₁, ← List.append_assoc, ← List.append_assoc, hw]
        simp
      rw [htrim x _ ht] at hx
      cases hx
  obtain ⟨h0, h1⟩ := List.append_eq_nil.mp hws
  refine ⟨a, ?_, ha⟩
  rw [e₀, e₁, h0, h1]
  simp

/-- When `Sscanf` reports no error on an input that does not start with white space,
the input begins with two integers separated by white space other than a newline. -/
theorem Sscanf_found (t : GoString) (w₀ h₀ : Int)
    (htrim : ∀ c r, t = c :: r → isSpace c = false)
    (h : (Sscanf t w₀ h₀).2.2 = true) : StartsWithTwoInts t := by
  rw [Sscanf] at h
  split at h
  · cases h
  · rename_i i₁ hs₁
    split at h
    · cases h
    · rename_i w i₂ hsc₁
      obtain ⟨a, ea, ha⟩ := scanInt_first t i₁ i₂ w htrim hs₁ hsc₁
      split at h
      · cases h
      · rename_i i₃ hadv
        split at h
        · cases h
        · rename_i i₄ hs₂
          split at h
          · cases h
          · rename_i hh i₅ hsc₂
            obtain ⟨ws₃, e₃, hb₃⟩ := SkipSpace_inv _ _ hs₂
            obtain ⟨ws₄, b, e₄, hb₄, hb⟩ := scanInt_inv _ _ _ hsc₂
            have hbne := IsNumeral_ne_nil hb
            rcases advanceSpace_inv _ _ hadv with ⟨_, h3⟩ | ⟨wsA, hne, eA, hbA⟩
            · exfalso
              rw [h3] at e₃
              have h4 : i₄ = [] := (List.append_eq_nil.mp e₃.symm).2
              rw [h4] at e₄
              have := (List.append_eq_nil.mp (List.append_eq_nil.mp e₄.symm).1).2
              exact hbne this
            · refine ⟨a, wsA ++ ws₃ ++ ws₄, b, i₅, ?_, ha, by simp [hne],
                Blanks_append (Blanks_append hbA hb₃) hb₄, hb⟩
              rw [ea, eA, e₃, e₄]
              simp

theorem not_StartsWithTwoInts_of_IsNumeral {t : GoString} (h : IsNumeral t) :
    ¬ StartsWithTwoInts t := by
  rintro ⟨a, ws, b, rest, e, _, hne, hb, _⟩
  cases ws with
  | nil => exact hne rfl
  | cons x xs =>
    have hx : isSpace x = true := (hb x (List.mem_cons_self _ _)).1
    have hmem : x ∈ t := by rw [e]; simp
    rw [IsNumeral_not_space h x hmem] at hx
    cases hx

/-- A text no initial segment of which is an integer leaves both operands untouched. -/
theorem Sscanf_no_numeral (t : GoString) (w₀ h₀ : Int)
    (htrim : ∀ c r, t = c :: r → isSpace c = false)
    (h : ∀ a, a <+: t → ¬ IsNumeral a) : Sscanf t w₀ h₀ = (w₀, h₀, false) := by
  rw [Sscanf]
  split
  · rfl
  · rename_i i₁ hs₁
    split
    · rfl
    · rename_i w i₂ hsc₁
      obtain ⟨a, ea, ha⟩ := scanInt_first t i₁ i₂ w htrim hs₁ hsc₁
      exact absurd ha (h a ⟨i₂, ea.symm⟩)

/-- C8 (as amended): `QueryPaneSize` returns `(0, 0, false)` whenever the
`display-message` invocation fails; it returns `found = true` only when the invocation
succeeds and the trimmed reply begins with two decimal integers separated by white space
other than a newline, so a reply that is a single number gives `found = false`; and a
reply that does not begin with a decimal integer gives the result of a process failure,
`(0, 0, false)`. -/
theorem QueryPaneSize_found (tmux : Tmux) (target : GoString) :
    ((tmux (queryPaneSizeArgs target)).2 ≠ none → QueryPaneSize tmux target = (0, 0, false))
      ∧ ((QueryPaneSize tmux target).2.2 = true →
          (tmux (queryPaneSizeArgs target)).2 = none
            ∧ StartsWithTwoInts (TrimSpace (tmux (queryPaneSizeArgs target)).1))
      ∧ ((tmux (queryPaneSizeArgs target)).2 = none →
          IsNumeral (TrimSpace (tmux (queryPaneSizeArgs target)).1) →
          (QueryPaneSize tmux target).2.2 = false)
      ∧ ((tmux (queryPaneSizeArgs target)).2 = none →
          (∀ a, a <+: TrimSpace (tmux (queryPaneSizeArgs target)).1 → ¬ IsNumeral a) →
          QueryPaneSize tmux target = (0, 0, false)) := by
  have htrim := TrimSpace_head (tmux (queryPaneSizeArgs target)).1
  have hfound : (QueryPaneSize tmux target).2.2 = true →
      (tmux (queryPaneSizeArgs target)).2 = none
        ∧ StartsWithTwoInts (TrimSpace (tmux (queryPaneSizeArgs target)).1) := by
    intro h
    by_cases herr : (tmux (queryPaneSizeArgs target)).2 = none
    · simp only [QueryPaneSize, herr, ne_eq, not_true_eq_false, if_false] at h
      exact ⟨herr, Sscanf_found _ 0 0 htrim h⟩
    · simp [QueryPaneSize, herr] at h
  refine ⟨?_, hfound, ?_, ?_⟩
  · intro herr
    simp [QueryPaneSize, herr]
  · intro _ hnum
    cases hf : (QueryPaneSize tmux target).2.2 with
    | false => rfl
    | true => exact absurd (hfound hf).2 (not_StartsWithTwoInts_of_IsNumeral hnum)
  · intro herr hno
    simp only [QueryPaneSize, herr, ne_eq, not_true_eq_false, if_false]
    exact Sscanf_no_numeral _ 0 0 htrim hno

/-- Counterexample to C8 as stated: the reply `"80 24 extra\n"` is two numbers followed
by extra text and yet gives `found = true`; the reply `"80 x\n"` fails to parse and gives
`(80, 0, false)`, which is not the `(0, 0, false)` of a process failure. -/
theorem QueryPaneSize_strict_counterexample :
    QueryPaneSize (fun _ => ("80 24 extra\n".toList, none)) "t".toList = (80, 24, true)
      ∧ QueryPaneSize (fun _ => ("80 x\n".toList, none)) "t".toList = (80, 0, false)
      ∧ QueryPaneSize (fun _ => ([], some "exit status 1")) "t".toList = (0, 0, false) := by
  decide

end Mux
